import Mathlib

/-!
Verification development for the NaviLang lexical front end
(`navilang-core`): the lexer engine (`src/lexer/mod.rs`), the token
taxonomy (`src/lexer/tokens.rs`), the diagnostic model (`src/error.rs`)
and the source-file reader (`src/reader.rs`), shallowly embedded in Lean.

The token classification in the source is driven by the `logos` pattern
engine: every variant of `Token` carries a regex or literal pattern, and
the engine applies maximal munch (the longest accepting prefix across all
patterns wins) with pattern priority breaking ties between equal-length
matches (a whole-word keyword beats the identifier pattern on the same
slice).  The embedding reproduces each variant's pattern as an explicit
longest-match function on `List Char` and combines them with exactly that
rule.  Case-insensitive patterns use simple case folding, which for the
lowercase ASCII reserved words accepts the ASCII upper/lower variants of
each letter (plus the two Unicode singletons that fold onto ASCII).
Offsets count UTF-8 bytes, as in the Rust source; columns count
characters.  When no pattern matches at the cursor the engine reports the
offending character at that position, which the embedding models as a
one-character unmatched slice, matching the `Unexpected character: '{c}'`
diagnostic the lexer builds from it.
-/

namespace NaviLang

/-- Number of bytes of the UTF-8 encoding of a character (the Rust
`str::len` is a byte count; spans store byte offsets). -/
def charBytes (c : Char) : Nat :=
  if c.toNat ≤ 0x7F then 1
  else if c.toNat ≤ 0x7FF then 2
  else if c.toNat ≤ 0xFFFF then 3
  else 4

/-- UTF-8 byte length of a character list. -/
def utf8Len (cs : List Char) : Nat :=
  cs.foldr (fun c n => charBytes c + n) 0

/-- Position tracking for precise error locations (`error.rs`,
`struct Position`). -/
structure Position where
  line : Nat
  column : Nat
  offset : Nat

/-- Span representing a range in source code (`error.rs`, `struct Span`).
The Rust field `end` is named `stop` here because `end` is a Lean
keyword. -/
structure Span where
  start : Position
  stop : Position

/-- The miette `SourceSpan`: a byte offset plus a byte length
(`error.rs`, `Span::to_miette_span`). -/
structure SourceSpan where
  offset : Nat
  length : Nat

/-- Conversion of a `Span` to a renderable byte-offset/length pair
(`error.rs`, `Span::to_miette_span`). -/
def Span.to_miette_span (s : Span) : SourceSpan :=
  ⟨s.start.offset, s.stop.offset - s.start.offset⟩

/-- The diagnostic taxonomy (`error.rs`, `enum NaviLangError`).  The
`IoError` and `GenericError` variants wrap a foreign failure; only its
message text is relevant to this development. -/
inductive NaviLangError where
  | SyntaxError (message : String) (src : String) (span : SourceSpan)
  | SemanticError (message : String) (src : String) (span : SourceSpan)
  | TypeError (expected : String) (found : String) (src : String) (span : SourceSpan)
  | UnknownIdentifier (name : String) (src : String) (span : SourceSpan)
  | FlowError (message : String) (src : String) (span : SourceSpan)
  | IoError (message : String)
  | GenericError (message : String)
  | MultipleErrors (errors : List NaviLangError)

/-- Constructor helper (`error.rs`, `NaviLangError::syntax_error`). -/
def NaviLangError.syntax_error (message : String) (src : String) (span : Span) :
    NaviLangError :=
  .SyntaxError message src span.to_miette_span

/-- The token taxonomy (`tokens.rs`, `enum Token`).  Keyword,
punctuation, type-annotation and boolean variants are payload-free; the
literal variants carry the payload the source stores.  `Number` holds the
`i64` parse of the digits (`None` on overflow, as `parse::<i64>().ok()`
yields).  The Rust `Float` variant holds `f64::parse(...).ok()`; since a
lexeme of shape `digits.digits` always parses, the embedding keeps the raw
matched text in the payload position rather than a floating-point value
(no claim inspects it). -/
inductive Token : Type where
  | Var | Context | Goes | To | Created | By | If | Then | When
  | Calls | Receives | Returns | Does | Uses | Is | After | Before
  | Parallel | And | Or
  | Retry | Timeout | Async | Batch | Loop | While | Break | Continue
  | LeftBrace | RightBrace | Colon | LeftBracket | RightBracket | Comma
  | LeftParen | RightParen | Equals | NotEquals | LessThan | GreaterThan
  | LessEqual | GreaterEqual
  | Identifier (name : String)
  | QuotedString (s : String)
  | Number (value : Option Int)
  | Float (raw : Option String)
  | Duration (d : String)
  | Entity | Service | Endpoint | Object | StringType | NumberType
  | BooleanType
  | True | False
  | Whitespace | Newline | Comment | BlockComment

/-- Whether the token is filtered out of the filtered stream
(`tokens.rs`, `Token::is_whitespace`). -/
def Token.is_whitespace : Token → Bool
  | .Whitespace | .Newline | .Comment | .BlockComment => true
  | _ => false

/-- Whether the token is one of the canonical keyword variants
(`tokens.rs`, `Token::is_keyword`). -/
def Token.is_keyword : Token → Bool
  | .Var | .Context | .Goes | .To | .Created | .By | .If | .Then | .When
  | .Calls | .Receives | .Returns | .Does | .Uses | .Is | .After | .Before
  | .Parallel | .And | .Or
  | .Retry | .Timeout | .Async | .Batch | .Loop | .While | .Break
  | .Continue
  | .Entity | .Service | .Endpoint | .Object | .StringType | .NumberType
  | .BooleanType
  | .True | .False => true
  | _ => false

/-- Token paired with its span (`lexer/mod.rs`, `struct TokenWithSpan`). -/
structure TokenWithSpan where
  token : Token
  span : Span

/-- Does the character `c` of the input match the lowercase pattern
character `d` of a case-insensitive keyword pattern?  `(?i)` patterns use
simple case folding: for a lowercase ASCII letter `d` this accepts `d`
itself, its ASCII uppercase, and the two Unicode characters whose simple
fold is an ASCII letter (U+017F long s → `s`, U+212A kelvin sign → `k`). -/
def matchesLower (c d : Char) : Bool :=
  c == d
    || (65 ≤ c.toNat && c.toNat ≤ 90 && c.toNat + 32 == d.toNat)
    || (d == 's' && c.toNat == 0x17F)
    || (d == 'k' && c.toNat == 0x212A)

/-- Case-insensitive match of the whole keyword `w` (given lowercase)
against a prefix of the input. -/
def icPref : List Char → List Char → Bool
  | [], _ => true
  | _ :: _, [] => false
  | d :: ds, c :: cs => matchesLower c d && icPref ds cs

/-- Case-insensitive whole-word equality with a reserved word `w`. -/
def icEqWord (w cs : List Char) : Bool :=
  icPref w cs && w.length == cs.length

/-- The reserved words of `tokens.rs` with their canonical payload-free
variants, in declaration order: the 28 core/advanced keywords, the 7
type-annotation keywords and the 2 boolean literals, each declared with a
case-insensitive `(?i)` pattern. -/
def reservedWords : List (List Char × Token) :=
  [("var".data, .Var), ("context".data, .Context), ("goes".data, .Goes),
   ("to".data, .To), ("created".data, .Created), ("by".data, .By),
   ("if".data, .If), ("then".data, .Then), ("when".data, .When),
   ("calls".data, .Calls), ("receives".data, .Receives),
   ("returns".data, .Returns), ("does".data, .Does), ("uses".data, .Uses),
   ("is".data, .Is), ("after".data, .After), ("before".data, .Before),
   ("parallel".data, .Parallel), ("and".data, .And), ("or".data, .Or),
   ("retry".data, .Retry), ("timeout".data, .Timeout),
   ("async".data, .Async), ("batch".data, .Batch), ("loop".data, .Loop),
   ("while".data, .While), ("break".data, .Break),
   ("continue".data, .Continue),
   ("entity".data, .Entity), ("service".data, .Service),
   ("endpoint".data, .Endpoint), ("object".data, .Object),
   ("string".data, .StringType), ("number".data, .NumberType),
   ("boolean".data, .BooleanType),
   ("true".data, .True), ("false".data, .False)]

/-- Longest keyword match at the current position.  No reserved word is a
proper prefix of another, so at most one keyword pattern matches here and
`find?` returns it. -/
def keywordMatch (cs : List Char) : Option (Nat × Token) :=
  (reservedWords.find? (fun e => icPref e.1 cs)).map (fun e => (e.1.length, e.2))

/-- The fixed punctuation and operator lexemes of `tokens.rs` (`#[token]`
patterns). -/
def punctRules : List (List Char × Token) :=
  [("\x7b".data, .LeftBrace), ("\x7d".data, .RightBrace), (":".data, .Colon),
   ("[".data, .LeftBracket), ("]".data, .RightBracket), (",".data, .Comma),
   ("(".data, .LeftParen), (")".data, .RightParen), ("=".data, .Equals),
   ("!=".data, .NotEquals), ("<".data, .LessThan), (">".data, .GreaterThan),
   ("<=".data, .LessEqual), (">=".data, .GreaterEqual)]

/-- All punctuation lexemes matching at the current position (at most one
single-character and one double-character candidate; maximal munch picks
the longer). -/
def punctCandidates (cs : List Char) : List (Nat × Token) :=
  punctRules.filterMap (fun e =>
    if e.1.isPrefixOf cs then some (e.1.length, e.2) else none)

/-- Length of the longest prefix on which `p` holds. -/
def takeLenWhile (p : Char → Bool) : List Char → Nat
  | [] => 0
  | c :: rest => if p c then 1 + takeLenWhile p rest else 0

/-- ASCII decimal digit, the class `[0-9]`. -/
def isDigitB (c : Char) : Bool :=
  48 ≤ c.toNat && c.toNat ≤ 57

/-- First character of the identifier pattern, the class `[a-zA-Z_]`. -/
def identStart (c : Char) : Bool :=
  (65 ≤ c.toNat && c.toNat ≤ 90) || (97 ≤ c.toNat && c.toNat ≤ 122)
    || c == '_'

/-- Continuation character of the identifier pattern, the class
`[a-zA-Z0-9_]`. -/
def identCont (c : Char) : Bool :=
  identStart c || isDigitB c

/-- Longest match of the identifier pattern `[a-zA-Z_][a-zA-Z0-9_]*`,
carrying the raw case-preserved text (`tokens.rs`, `Token::Identifier`). -/
def identMatch (cs : List Char) : Option (Nat × Token) :=
  match cs with
  | [] => none
  | c :: rest =>
    if identStart c then
      some (1 + takeLenWhile identCont rest,
        .Identifier (String.mk ((c :: rest).take (1 + takeLenWhile identCont rest))))
    else none

/-- Scanner for the body of the quoted-string pattern
`"([^"\\]|\\.)*"` after the opening quote: an unescaped quote closes the
string (the unique accepting point), a backslash must be followed by a
non-newline character, and end of input means no match. -/
def qstrBody : List Char → Nat → Option Nat
  | [], _ => none
  | c :: rest, n =>
    if c = '"' then some (n + 1)
    else if c = '\\' then
      match rest with
      | [] => none
      | e :: rest2 => if e = '\n' then none else qstrBody rest2 (n + 2)
    else qstrBody rest (n + 1)

/-- Longest match of the quoted-string pattern; the payload strips the
two delimiting quotes and nothing else (`tokens.rs`,
`Token::QuotedString`). -/
def quotedMatch (cs : List Char) : Option (Nat × Token) :=
  match cs with
  | [] => none
  | c :: rest =>
    if c = '"' then
      (qstrBody rest 1).map (fun n =>
        (n, .QuotedString (String.mk (((c :: rest).take n).drop 1 |>.dropLast))))
    else none

/-- Numeric value of a digit string. -/
def natOfDigits (ds : List Char) : Nat :=
  ds.foldl (fun a c => a * 10 + (c.toNat - 48)) 0

/-- The `i64` parse of a digit string: `parse::<i64>().ok()` fails
exactly on overflow past `i64::MAX` (the pattern admits no sign). -/
def i64OfDigits (ds : List Char) : Option Int :=
  if natOfDigits ds ≤ 9223372036854775807 then some (Int.ofNat (natOfDigits ds))
  else none

/-- Longest match of the integer pattern `[0-9]+` (`tokens.rs`,
`Token::Number`). -/
def numberMatch (cs : List Char) : Option (Nat × Token) :=
  if takeLenWhile isDigitB cs = 0 then none
  else some (takeLenWhile isDigitB cs,
    .Number (i64OfDigits (cs.take (takeLenWhile isDigitB cs))))

/-- Longest match of the float pattern `[0-9]+\.[0-9]+` (`tokens.rs`,
`Token::Float`). -/
def floatMatch (cs : List Char) : Option (Nat × Token) :=
  if takeLenWhile isDigitB cs = 0 then none
  else
    match cs.drop (takeLenWhile isDigitB cs) with
    | '.' :: rest =>
      if takeLenWhile isDigitB rest = 0 then none
      else some (takeLenWhile isDigitB cs + 1 + takeLenWhile isDigitB rest,
        .Float (some (String.mk
          (cs.take (takeLenWhile isDigitB cs + 1 + takeLenWhile isDigitB rest)))))
    | _ => none

/-- Longest match of the duration pattern
`[0-9]+s|[0-9]+ms|[0-9]+m|[0-9]+h`: digits immediately followed by a unit
suffix, stored as the raw matched text (`tokens.rs`, `Token::Duration`). -/
def durationMatch (cs : List Char) : Option (Nat × Token) :=
  if takeLenWhile isDigitB cs = 0 then none
  else
    match cs.drop (takeLenWhile isDigitB cs) with
    | 'm' :: 's' :: _ =>
      some (takeLenWhile isDigitB cs + 2,
        .Duration (String.mk (cs.take (takeLenWhile isDigitB cs + 2))))
    | 'm' :: _ =>
      some (takeLenWhile isDigitB cs + 1,
        .Duration (String.mk (cs.take (takeLenWhile isDigitB cs + 1))))
    | 's' :: _ =>
      some (takeLenWhile isDigitB cs + 1,
        .Duration (String.mk (cs.take (takeLenWhile isDigitB cs + 1))))
    | 'h' :: _ =>
      some (takeLenWhile isDigitB cs + 1,
        .Duration (String.mk (cs.take (takeLenWhile isDigitB cs + 1))))
    | _ => none

/-- Character of the whitespace class `[ \t\f]`. -/
def isWsChar (c : Char) : Bool :=
  c == ' ' || c == '\t' || c == '\x0C'

/-- Longest match of the whitespace pattern `[ \t\f]+`. -/
def wsMatch (cs : List Char) : Option (Nat × Token) :=
  if takeLenWhile isWsChar cs = 0 then none
  else some (takeLenWhile isWsChar cs, .Whitespace)

/-- Match of the newline pattern `\r?\n`. -/
def nlMatch : List Char → Option (Nat × Token)
  | [] => none
  | c :: rest =>
    if c = '\n' then some (1, .Newline)
    else if c = '\r' then
      match rest with
      | [] => none
      | d :: _ => if d = '\n' then some (2, .Newline) else none
    else none

/-- Character that a line comment may still consume, the class
`[^\r\n]`. -/
def notNl (c : Char) : Bool :=
  !(c == '\n' || c == '\r')

/-- Longest match of the line-comment pattern `//[^\r\n]*`. -/
def commentMatch : List Char → Option (Nat × Token)
  | [] => none
  | c :: rest =>
    if c = '/' then
      match rest with
      | [] => none
      | d :: rest2 =>
        if d = '/' then some (2 + takeLenWhile notNl rest2, .Comment) else none
    else none

/-- DFA scan for the body of the block-comment pattern
`/\*([^*]|\*[^/])*\*/` after the opening `/*`.  The flag records whether
the previous character was a `*` that may begin the closer: in that state
a `/` accepts (the unique accepting point, after which the pattern has no
continuation), and any other character — including another `*`, which is
consumed as the second character of a `\*[^/]` pair — returns to the plain
body state. -/
def blockScan : Bool → List Char → Nat → Option Nat
  | _, [], _ => none
  | false, c :: rest, n =>
    if c = '*' then blockScan true rest (n + 1) else blockScan false rest (n + 1)
  | true, c :: rest, n =>
    if c = '/' then some (n + 1) else blockScan false rest (n + 1)

/-- Longest match of the block-comment pattern (`tokens.rs`,
`Token::BlockComment`). -/
def blockMatch : List Char → Option (Nat × Token)
  | [] => none
  | c :: rest =>
    if c = '/' then
      match rest with
      | [] => none
      | d :: rest2 =>
        if d = '*' then (blockScan false rest2 2).map (fun n => (n, .BlockComment))
        else none
    else none

/-- All pattern matches available at the current position, as
(length, token) candidates.  Keyword and fixed-punctuation patterns come
before the identifier pattern, reflecting the priority that breaks the
only equal-length tie the taxonomy admits (a whole reserved word also
matches the identifier pattern). -/
def candidates (cs : List Char) : List (Nat × Token) :=
  (keywordMatch cs).toList ++ punctCandidates cs ++ (quotedMatch cs).toList
    ++ (durationMatch cs).toList ++ (floatMatch cs).toList
    ++ (numberMatch cs).toList ++ (identMatch cs).toList
    ++ (wsMatch cs).toList ++ (nlMatch cs).toList
    ++ (commentMatch cs).toList ++ (blockMatch cs).toList

/-- Keep the candidate with the strictly greater length; an earlier
candidate wins an equal-length tie. -/
def better (a : Option (Nat × Token)) (c : Nat × Token) : Option (Nat × Token) :=
  match a with
  | none => some c
  | some b => if b.1 < c.1 then some c else some b

/-- Maximal munch over all patterns: the longest accepting prefix wins,
with the priority order of `candidates` breaking equal-length ties.  This
is the next-lexeme step the `logos`-driven `Lexer` performs. -/
def bestMatch (cs : List Char) : Option (Nat × Token) :=
  (candidates cs).foldl better none

/-- Line/column advance over a consumed slice: a newline bumps the line
and resets the column to 1, any other character bumps the column
(`lexer/mod.rs`, `Lexer::update_position` and the end-position loop of
`Lexer::current_span`). -/
def advancePos (line col : Nat) (slice : List Char) : Nat × Nat :=
  slice.foldl (fun p ch => if ch = '\n' then (p.1 + 1, 1) else (p.1, p.2 + 1))
    (line, col)

/-- Span of the token currently being processed (`lexer/mod.rs`,
`Lexer::current_span`): it starts at the running position and ends after
the consumed slice, with the end offset advanced by the slice's byte
length and the end line/column advanced across embedded newlines. -/
def currentSpan (line col offset : Nat) (slice : List Char) : Span :=
  ⟨⟨line, col, offset⟩,
   ⟨(advancePos line col slice).1, (advancePos line col slice).2,
    offset + utf8Len slice⟩⟩

/-- The scan loop of `Lexer::tokenize`, with explicit cursor state and a
fuel argument bounding the number of iterations (each iteration consumes
at least one character, so `input.length` fuel always suffices; the
fuel-exhausted branch is unreachable from `tokenize`).  On a match the
token and its span are appended and the running position advanced by the
consumed slice; when no pattern matches, the scan aborts with the
`Unexpected character` syntax error carrying the complete source text and
the span of the offending character. -/
def tokenizeFuel (src : String) :
    Nat → Nat → Nat → Nat → List Char → Except NaviLangError (List TokenWithSpan)
  | _, _, _, _, [] => .ok []
  | 0, _, _, _, _ :: _ => .error (.GenericError "fuel exhausted")
  | fuel + 1, line, col, offset, c :: rest =>
    match bestMatch (c :: rest) with
    | some (n, tok) =>
      match tokenizeFuel src fuel (advancePos line col ((c :: rest).take n)).1
          (advancePos line col ((c :: rest).take n)).2
          (offset + utf8Len ((c :: rest).take n)) ((c :: rest).drop n) with
      | .ok ts => .ok (⟨tok, currentSpan line col offset ((c :: rest).take n)⟩ :: ts)
      | .error e => .error e
    | none =>
      .error (NaviLangError.syntax_error
        ("Unexpected character: '" ++ String.mk [c] ++ "'") src
        (currentSpan line col offset [c]))

/-- Tokenize the entire input (`lexer/mod.rs`, `Lexer::tokenize`),
starting from line 1, column 1, offset 0 as `Lexer::new` does. -/
def tokenize (input : String) : Except NaviLangError (List TokenWithSpan) :=
  tokenizeFuel input input.data.length 1 1 0 input.data

/-- Tokenize and filter out whitespace/comment sentinels (`lexer/mod.rs`,
`Lexer::tokenize_filtered`). -/
def tokenize_filtered (input : String) : Except NaviLangError (List TokenWithSpan) :=
  (tokenize input).map (fun ts => ts.filter (fun t => !t.token.is_whitespace))

/-- Error collector for batch processing (`error.rs`,
`struct ErrorCollector`). -/
structure ErrorCollector where
  errors : List NaviLangError

/-- A fresh collector (`ErrorCollector::new`). -/
def ErrorCollector.new : ErrorCollector :=
  ⟨[]⟩

/-- Append a diagnostic (`ErrorCollector::add_error`; `Vec::push`). -/
def ErrorCollector.add_error (c : ErrorCollector) (e : NaviLangError) :
    ErrorCollector :=
  ⟨c.errors ++ [e]⟩

/-- Whether any error has been recorded (`ErrorCollector::has_errors`). -/
def ErrorCollector.has_errors (c : ErrorCollector) : Bool :=
  !c.errors.isEmpty

/-- Number of recorded errors (`ErrorCollector::error_count`). -/
def ErrorCollector.error_count (c : ErrorCollector) : Nat :=
  c.errors.length

/-- Resolve the pass outcome (`error.rs`, `ErrorCollector::into_result`):
the success value with no recorded errors, the lone diagnostic with
exactly one, and a `MultipleErrors` aggregate of the whole recorded list
otherwise. -/
def ErrorCollector.into_result {α : Type} (c : ErrorCollector) (v : α) :
    Except NaviLangError α :=
  match c.errors with
  | [] => .ok v
  | [e] => .error e
  | es => .error (.MultipleErrors es)

/-- A collector after a sequence of `add_error` calls in the given
order, starting from `ErrorCollector::new`. -/
def collectErrors (l : List NaviLangError) : ErrorCollector :=
  l.foldl ErrorCollector.add_error ErrorCollector.new

/-- Split a character list at every newline character, keeping the
pieces (a list of `n` newlines yields `n + 1` pieces). -/
def splitNl : List Char → List (List Char)
  | [] => [[]]
  | c :: rest =>
    if c = '\n' then [] :: splitNl rest
    else
      match splitNl rest with
      | [] => [[c]]
      | p :: ps => (c :: p) :: ps

/-- Drop one trailing carriage return, as `str::lines` does on a piece
terminated by a newline. -/
def stripCr (l : List Char) : List Char :=
  if l.getLast? = some '\r' then l.dropLast else l

/-- The Rust `str::lines` iterator: pieces split at `\n`, the final empty
piece of a trailing terminator removed, and a trailing `\r` stripped only
from pieces that were `\n`-terminated (a final unterminated piece keeps
its characters verbatim). -/
def rustLines (cs : List Char) : List (List Char) :=
  if cs.isEmpty then []
  else
    ((splitNl cs).dropLast.map stripCr)
      ++ (match (splitNl cs).getLast? with
          | some [] => []
          | some l => [l]
          | none => [])

/-- A source file with content and metadata (`reader.rs`,
`struct SourceFile`). -/
structure SourceFile where
  content : String
  path : String
  lines : List String

/-- Build a `SourceFile` from a string (`reader.rs`,
`SourceFile::from_string`): the `lines` field is `content.lines()`
collected. -/
def SourceFile.from_string (content path : String) : SourceFile :=
  ⟨content, path, (rustLines content.data).map String.mk⟩

/-- Get a specific line by 1-indexed line number (`reader.rs`,
`SourceFile::get_line`); the index conversion is a saturating
subtraction. -/
def SourceFile.get_line (f : SourceFile) (line_number : Nat) : Option String :=
  f.lines.get? (line_number - 1)

/-- Total number of lines (`reader.rs`, `SourceFile::line_count`). -/
def SourceFile.line_count (f : SourceFile) : Nat :=
  f.lines.length

/-- Get a 1-indexed inclusive range of lines (`reader.rs`,
`SourceFile::get_lines`): empty when the saturating start index is out of
range or `start > end`, otherwise the slice from the start index to the
end bound clamped to the number of lines. -/
def SourceFile.get_lines (f : SourceFile) (start stop : Nat) : List String :=
  if start - 1 ≥ f.lines.length ∨ start > stop then []
  else (f.lines.take (min stop f.lines.length)).drop (start - 1)

/-- Characters able to begin a keyword match: ASCII letters plus the two
Unicode characters that case-fold onto an ASCII letter. -/
abbrev KwHead (c : Char) : Prop :=
  (65 ≤ c.toNat ∧ c.toNat ≤ 90) ∨ (97 ≤ c.toNat ∧ c.toNat ≤ 122)
    ∨ c.toNat = 0x17F ∨ c.toNat = 0x212A

/-- The characters that begin some punctuation lexeme. -/
def punctHeads : List Char :=
  ['{', '}', ':', '[', ']', ',', '(', ')', '=', '!', '<', '>']

/-- ASCII letter. -/
def isAsciiAlphaB (c : Char) : Bool :=
  (65 ≤ c.toNat && c.toNat ≤ 90) || (97 ≤ c.toNat && c.toNat ≤ 122)

/-- Is `c` the character `d` or, for a lowercase ASCII letter `d`, its
ASCII uppercase? -/
def upVariantChar (c d : Char) : Bool :=
  c == d || (65 ≤ c.toNat && c.toNat ≤ 90 && c.toNat + 32 == d.toNat)

/-- Is `v` the word `w` respelled in some mixture of upper and lower
case (pointwise, each character kept or replaced by its ASCII
uppercase)? -/
def asciiVariantB : List Char → List Char → Bool
  | [], [] => true
  | c :: cs, d :: ds => upVariantChar c d && asciiVariantB cs ds
  | _, _ => false

/-- Is `cs` shaped like one maximal identifier lexeme, i.e. a full match
of `[a-zA-Z_][a-zA-Z0-9_]*`? -/
def identShapedB : List Char → Bool
  | [] => false
  | c :: rest => identStart c && rest.all identCont

/-- Does the list begin with the two-character close sequence of a block
comment? -/
def startsSS : List Char → Bool
  | c :: d :: _ => c == '*' && d == '/'
  | _ => false

/-- Does the list contain the two-character close sequence of a block
comment? -/
def hasStarSlash : List Char → Bool
  | [] => false
  | c :: rest => startsSS (c :: rest) || hasStarSlash rest

/-- Does the list end with a `*`? -/
def endsStar : List Char → Bool
  | [] => false
  | [c] => c == '*'
  | _ :: rest => endsStar rest

/-- Whether an `Except` outcome is a success. -/
def isOkE {ε α : Type} : Except ε α → Bool
  | .ok _ => true
  | .error _ => false

/-- The token spans tile the lexeme decomposition `ls` starting at byte
offset `o`: each token's span starts where the previous one stopped and
is exactly as long, in bytes, as its lexeme. -/
def TilesFrom : Nat → List (List Char) → List TokenWithSpan → Prop
  | _, [], [] => True
  | o, l :: ls, t :: ts =>
    t.span.start.offset = o ∧ t.span.stop.offset = o + utf8Len l
      ∧ TilesFrom (o + utf8Len l) ls ts
  | _, [], _ :: _ => False
  | _, _ :: _, [] => False

/-- The token stream the lexer produces for the input `VAR x`, used to
instantiate the tiling invariant at a concrete scan. -/
def varXTokens : List TokenWithSpan :=
  [⟨.Var, ⟨⟨1, 1, 0⟩, ⟨1, 4, 3⟩⟩⟩,
   ⟨.Whitespace, ⟨⟨1, 4, 3⟩, ⟨1, 5, 4⟩⟩⟩,
   ⟨.Identifier "x", ⟨⟨1, 5, 4⟩, ⟨1, 6, 5⟩⟩⟩]

/-- The five-line file of the spec's `get_lines` examples. -/
def fiveLineFile : SourceFile :=
  SourceFile.from_string "line1\nline2\nline3\nline4\nline5" "test.navi"

/-- Whether the error is the `MultipleErrors` aggregate variant. -/
def isAggregate : NaviLangError → Bool
  | .MultipleErrors _ => true
  | _ => false

/-- The nesting-freedom property claimed of `into_result` outcomes: the
outcome is a success, a non-aggregate error, or an aggregate whose
element list contains no aggregate. -/
def noNestedAggregate {α : Type} : Except NaviLangError α → Prop
  | .error (.MultipleErrors es) => ∀ e ∈ es, isAggregate e = false
  | _ => True

theorem foldl_add_error (l : List NaviLangError) :
    ∀ c : ErrorCollector, l.foldl ErrorCollector.add_error c = ⟨c.errors ++ l⟩ := by
  induction l with
  | nil => intro c; simp
  | cons e t ih =>
    intro c
    simp only [List.foldl_cons, ih]
    simp [ErrorCollector.add_error]

theorem collectErrors_eq (l : List NaviLangError) : collectErrors l = ⟨l⟩ := by
  simp [collectErrors, foldl_add_error, ErrorCollector.new]

/-- C4: `into_result(v)` on a collector that recorded the errors `l` in
order returns `Ok v` when `l` is empty, the single unwrapped diagnostic
when `l` has exactly one element, and `MultipleErrors` over exactly `l`
(insertion order preserved) when `l` has two or more. -/
theorem c4_into_result {α : Type} (v : α) (l : List NaviLangError) :
    (l = [] → (collectErrors l).into_result v = .ok v) ∧
    (∀ e, l = [e] → (collectErrors l).into_result v = .error e) ∧
    (2 ≤ l.length → (collectErrors l).into_result v =
      .error (.MultipleErrors l)) := by
  rw [collectErrors_eq]
  refine ⟨?_, ?_, ?_⟩
  · rintro rfl; rfl
  · rintro e rfl; rfl
  · intro h
    match l, h with
    | a :: b :: t, _ => rfl

/-- Witness for C4: a two-error pass resolves to the aggregate of both,
in insertion order. -/
theorem c4_witness :
    ((collectErrors [.GenericError "a", .GenericError "b"]).into_result 7 =
      .error (.MultipleErrors [.GenericError "a", .GenericError "b"])) ∧
    ((collectErrors ([] : List NaviLangError)).into_result 7 = .ok 7) :=
  ⟨(c4_into_result 7 [.GenericError "a", .GenericError "b"]).2.2 (by decide),
   (c4_into_result 7 []).1 rfl⟩

/-- Counterexample to C5 as stated: `add_error` accepts aggregates, so
adding two `MultipleErrors` values yields an `into_result` outcome that
is a `MultipleErrors` containing a `MultipleErrors`. -/
theorem c5_counterexample :
    ¬ noNestedAggregate
      ((collectErrors [.MultipleErrors [], .MultipleErrors []]).into_result 0) := by
  intro h
  have hres : (collectErrors [.MultipleErrors [], .MultipleErrors []]).into_result 0 =
      Except.error (.MultipleErrors [.MultipleErrors [], .MultipleErrors []]) := by
    rw [collectErrors_eq]; rfl
  rw [hres] at h
  exact absurd (h (.MultipleErrors []) (by simp)) (by simp [isAggregate])

/-- C5 (amended): provided every error recorded via `add_error` is itself
a non-aggregate, `into_result` never produces a nested aggregate: the
outcome is a success, a non-aggregate error, or a `MultipleErrors` whose
element list contains no `MultipleErrors` value. -/
theorem c5_no_nested_aggregate {α : Type} (v : α) (l : List NaviLangError)
    (h : ∀ e ∈ l, isAggregate e = false) :
    noNestedAggregate ((collectErrors l).into_result v) := by
  rw [collectErrors_eq]
  match l, h with
  | [], _ => trivial
  | [e], h =>
    have he : isAggregate e = false := h e (by simp)
    show noNestedAggregate (Except.error e)
    cases e <;> simp_all [noNestedAggregate, isAggregate]
  | a :: b :: t, h =>
    show noNestedAggregate (Except.error (.MultipleErrors (a :: b :: t)))
    exact h

/-- Witness for C5 (amended): two non-aggregate errors produce a clean
aggregate. -/
theorem c5_witness :
    noNestedAggregate
      ((collectErrors [.IoError "x", .SyntaxError "m" "s" ⟨0, 1⟩]).into_result 0) :=
  c5_no_nested_aggregate 0 [.IoError "x", .SyntaxError "m" "s" ⟨0, 1⟩]
    (by
      intro e he
      simp only [List.mem_cons, List.not_mem_nil, or_false] at he
      rcases he with rfl | rfl <;> rfl)

/-- C7: `tokenize_filtered("TIMEOUT 30s")` yields exactly the canonical
`Timeout` keyword token followed by a `Duration` token carrying the raw
text `30s` — the duration pattern, being longer, takes precedence over an
integer match on the digit prefix. -/
theorem c7_timeout_duration :
    tokenize_filtered "TIMEOUT 30s" = .ok
      [⟨.Timeout, ⟨⟨1, 1, 0⟩, ⟨1, 8, 7⟩⟩⟩,
       ⟨.Duration "30s", ⟨⟨1, 9, 8⟩, ⟨1, 12, 11⟩⟩⟩] := by
  rfl

/-- C8: `get_lines` is 1-indexed and inclusive: it returns the empty
sequence whenever `start > end` or `start` exceeds the number of lines,
and otherwise returns the lines from index `start` through `end` clamped
to the last available line; on the 5-line file, `get_lines(2,4)` is lines
2–4, `get_lines(4,10)` clamps to lines 4–5, and `get_lines(3,1)` is
empty. -/
theorem c8_get_lines :
    (∀ (f : SourceFile) (s e : Nat), e < s ∨ f.lines.length < s →
      f.get_lines s e = []) ∧
    (∀ (f : SourceFile) (s e : Nat), 1 ≤ s → s ≤ e → s ≤ f.lines.length →
      f.get_lines s e =
        (f.lines.drop (s - 1)).take (min e f.lines.length - (s - 1))) ∧
    fiveLineFile.get_lines 2 4 = ["line2", "line3", "line4"] ∧
    fiveLineFile.get_lines 4 10 = ["line4", "line5"] ∧
    fiveLineFile.get_lines 3 1 = [] := by
  refine ⟨?_, ?_, by rfl, by rfl, by rfl⟩
  · intro f s e h
    have : s - 1 ≥ f.lines.length ∨ s > e := by omega
    simp [SourceFile.get_lines, this]
  · intro f s e h1 h2 h3
    have hc : ¬ (s - 1 ≥ f.lines.length ∨ s > e) := by omega
    simp only [SourceFile.get_lines, if_neg hc]
    exact List.drop_take (min e f.lines.length) (s - 1) f.lines

/-- Witness for C8: the general clauses applied at concrete inputs. -/
theorem c8_witness :
    fiveLineFile.get_lines 6 9 = [] ∧
    fiveLineFile.get_lines 2 3 =
      (fiveLineFile.lines.drop 1).take (min 3 fiveLineFile.lines.length - 1) :=
  ⟨c8_get_lines.1 fiveLineFile 6 9 (Or.inr (by decide)),
   c8_get_lines.2.1 fiveLineFile 2 3 (by decide) (by decide) (by decide)⟩

/-- C10: line queries treat line number 0 like line number 1, because the
1-to-0 index conversion is a saturating subtraction: `get_line(0)` equals
`get_line(1)` and returns the first line of a non-empty file, and
`get_lines(0,e)` equals `get_lines(1,e)` for `e ≥ 1`. -/
theorem c10_zero_index :
    (∀ f : SourceFile, f.get_line 0 = f.get_line 1) ∧
    (∀ f : SourceFile, f.lines ≠ [] →
      (f.get_line 0).isSome ∧ f.get_line 0 = f.lines.head?) ∧
    (∀ (f : SourceFile) (e : Nat), 1 ≤ e →
      f.get_lines 0 e = f.get_lines 1 e) := by
  refine ⟨fun f => rfl, ?_, ?_⟩
  · intro f h
    unfold SourceFile.get_line
    cases hl : f.lines with
    | nil => exact absurd hl h
    | cons a t => simp
  · intro f e he
    unfold SourceFile.get_lines
    have h0 : ((0 : Nat) > e) = ((1 : Nat) > e) := by
      simp only [eq_iff_iff]; omega
    norm_num [h0]

/-- Witness for C10: the zero-index queries on a concrete two-line
file. -/
theorem c10_witness :
    ((SourceFile.from_string "a\nb" "t").get_line 0).isSome ∧
    (SourceFile.from_string "a\nb" "t").get_line 0 =
      (SourceFile.from_string "a\nb" "t").lines.head? ∧
    (SourceFile.from_string "a\nb" "t").get_lines 0 2 =
      (SourceFile.from_string "a\nb" "t").get_lines 1 2 :=
  ⟨(c10_zero_index.2.1 _ (by decide)).1, (c10_zero_index.2.1 _ (by decide)).2,
   c10_zero_index.2.2 _ 2 (by decide)⟩

theorem reserved_words_wf :
    reservedWords.all (fun e => !e.1.isEmpty
      && e.1.all (fun d => 97 ≤ d.toNat && d.toNat ≤ 122)) = true := by
  decide

theorem reserved_no_prefix_pairs :
    reservedWords.all (fun a => reservedWords.all (fun b =>
      a.1 == b.1 || !a.1.isPrefixOf b.1)) = true := by
  decide

theorem reserved_nodup_keys : (reservedWords.map Prod.fst).Nodup := by
  decide

theorem punct_rules_wf :
    punctRules.all (fun e => match e.1 with
      | h :: _ => punctHeads.contains h
      | [] => false) = true := by
  decide

theorem reserved_word_chars {w : List Char} {t : Token}
    (h : (w, t) ∈ reservedWords) :
    w ≠ [] ∧ ∀ d ∈ w, 97 ≤ d.toNat ∧ d.toNat ≤ 122 := by
  have hw := List.all_eq_true.mp reserved_words_wf _ h
  simp only [Bool.and_eq_true, Bool.not_eq_true', List.isEmpty_eq_false,
    List.all_eq_true, decide_eq_true_eq] at hw
  exact ⟨hw.1, hw.2⟩

theorem char_toNat_inj {c d : Char} (h : c.toNat = d.toNat) : c = d := by
  apply Char.ext
  exact UInt32.ext h

theorem matchesLower_eq_false {c d : Char} (hd1 : 97 ≤ d.toNat)
    (hd2 : d.toNat ≤ 122) (hc : ¬ KwHead c) : matchesLower c d = false := by
  rw [Bool.eq_false_iff]
  intro h
  simp only [matchesLower, Bool.or_eq_true, Bool.and_eq_true, beq_iff_eq,
    decide_eq_true_eq] at h
  rcases h with ((h | ⟨⟨h1, h2⟩, _⟩) | ⟨_, h17⟩) | ⟨_, h21⟩
  · subst h; exact hc (Or.inr (Or.inl ⟨hd1, hd2⟩))
  · exact hc (Or.inl ⟨h1, h2⟩)
  · exact hc (Or.inr (Or.inr (Or.inl h17)))
  · exact hc (Or.inr (Or.inr (Or.inr h21)))

theorem keywordMatch_none {c : Char} (hc : ¬ KwHead c) (rest : List Char) :
    keywordMatch (c :: rest) = none := by
  unfold keywordMatch
  rw [List.find?_eq_none.mpr]
  · rfl
  · intro e he
    obtain ⟨hne, hchars⟩ := reserved_word_chars (w := e.1) (t := e.2) he
    cases h1 : e.1 with
    | nil => exact absurd h1 hne
    | cons d ds =>
      have hd := hchars d (h1 ▸ List.mem_cons_self d ds)
      simp [icPref, matchesLower_eq_false hd.1 hd.2 hc]

theorem punctCandidates_nil {c : Char} (hc : c ∉ punctHeads) (rest : List Char) :
    punctCandidates (c :: rest) = [] := by
  unfold punctCandidates
  rw [List.filterMap_eq_nil_iff]
  intro e he
  have hh := List.all_eq_true.mp punct_rules_wf e he
  cases h1 : e.1 with
  | nil => rw [h1] at hh; exact absurd hh (by simp)
  | cons h tl =>
    rw [h1] at hh
    have hmem : h ∈ punctHeads := List.mem_of_elem_eq_true hh
    have hne : (h == c) = false :=
      beq_eq_false_iff_ne.mpr (fun heq => hc (heq ▸ hmem))
    simp [h1, List.isPrefixOf, hne]

theorem quotedMatch_none {c : Char} (h : c ≠ '"') (rest : List Char) :
    quotedMatch (c :: rest) = none := by
  simp [quotedMatch, h]

theorem takeLenWhile_cons_false {p : Char → Bool} {c : Char}
    (h : p c = false) (rest : List Char) :
    takeLenWhile p (c :: rest) = 0 := by
  simp [takeLenWhile, h]

theorem numberMatch_none {c : Char} (h : isDigitB c = false) (rest : List Char) :
    numberMatch (c :: rest) = none := by
  simp [numberMatch, takeLenWhile_cons_false h]

theorem floatMatch_none {c : Char} (h : isDigitB c = false) (rest : List Char) :
    floatMatch (c :: rest) = none := by
  simp [floatMatch, takeLenWhile_cons_false h]

theorem durationMatch_none {c : Char} (h : isDigitB c = false) (rest : List Char) :
    durationMatch (c :: rest) = none := by
  simp [durationMatch, takeLenWhile_cons_false h]

theorem identMatch_none {c : Char} (h : identStart c = false) (rest : List Char) :
    identMatch (c :: rest) = none := by
  simp [identMatch, h]

theorem wsMatch_none {c : Char} (h : isWsChar c = false) (rest : List Char) :
    wsMatch (c :: rest) = none := by
  simp [wsMatch, takeLenWhile_cons_false h]

theorem nlMatch_none {c : Char} (h1 : c ≠ '\n') (h2 : c ≠ '\r')
    (rest : List Char) : nlMatch (c :: rest) = none := by
  simp [nlMatch, h1, h2]

theorem commentMatch_none {c : Char} (h : c ≠ '/') (rest : List Char) :
    commentMatch (c :: rest) = none := by
  simp [commentMatch, h]

theorem blockMatch_none {c : Char} (h : c ≠ '/') (rest : List Char) :
    blockMatch (c :: rest) = none := by
  simp [blockMatch, h]

theorem foldl_better_some {l : List (Nat × Token)} :
    ∀ {acc r}, l.foldl better acc = some r → acc = some r ∨ r ∈ l := by
  induction l with
  | nil => intro acc r h; exact Or.inl h
  | cons c t ih =>
    intro acc r h
    rcases ih h with h1 | h1
    · unfold better at h1
      match acc, h1 with
      | none, h1 => exact Or.inr (by simp [← Option.some_inj.mp h1])
      | some b, h1 =>
        dsimp only at h1
        split at h1
        · exact Or.inr (by simp [← Option.some_inj.mp h1])
        · exact Or.inl (by rw [Option.some_inj.mp h1])
    · exact Or.inr (List.mem_cons_of_mem c h1)

theorem takeLenWhile_all {p : Char → Bool} :
    ∀ {l : List Char}, l.all p = true → takeLenWhile p l = l.length := by
  intro l
  induction l with
  | nil => intro _; rfl
  | cons c t ih =>
    intro h
    rw [List.all_cons, Bool.and_eq_true] at h
    simp only [takeLenWhile, h.1, if_true, ih h.2, List.length_cons]
    omega

theorem identMatch_full {cs : List Char} (h : identShapedB cs = true) :
    identMatch cs = some (cs.length, .Identifier (String.mk cs)) := by
  match cs, h with
  | c :: rest, h =>
    rw [identShapedB, Bool.and_eq_true] at h
    have hlen : 1 + takeLenWhile identCont rest = (c :: rest).length := by
      rw [takeLenWhile_all h.2, List.length_cons]; omega
    rw [identMatch]
    simp only [h.1, if_true, hlen, List.take_length]

theorem icPref_length_le : ∀ {w cs : List Char}, icPref w cs = true →
    w.length ≤ cs.length := by
  intro w
  induction w with
  | nil => intro cs _; simp
  | cons d ds ih =>
    intro cs h
    match cs, h with
    | c :: cs1, h =>
      rw [icPref, Bool.and_eq_true] at h
      simpa using ih h.2

theorem upVariantChar_matches {c d : Char} (h : upVariantChar c d = true) :
    matchesLower c d = true := by
  rw [upVariantChar, Bool.or_eq_true] at h
  rw [matchesLower]
  rcases h with h | h <;> simp [h]

theorem upVariantChar_alpha {c d : Char} (hd1 : 97 ≤ d.toNat)
    (hd2 : d.toNat ≤ 122) (h : upVariantChar c d = true) :
    isAsciiAlphaB c = true := by
  rw [upVariantChar, Bool.or_eq_true] at h
  rcases h with h | h
  · have : c = d := by simpa using h
    subst this
    simp only [isAsciiAlphaB, Bool.or_eq_true, Bool.and_eq_true,
      decide_eq_true_eq]
    exact Or.inr ⟨hd1, hd2⟩
  · simp only [Bool.and_eq_true, decide_eq_true_eq] at h
    simp only [isAsciiAlphaB, Bool.or_eq_true, Bool.and_eq_true,
      decide_eq_true_eq]
    exact Or.inl ⟨h.1.1, h.1.2⟩

theorem asciiVariantB_spec : ∀ {v w : List Char}, asciiVariantB v w = true →
    (∀ d ∈ w, 97 ≤ d.toNat ∧ d.toNat ≤ 122) →
    v.length = w.length ∧ icPref w v = true
      ∧ ∀ c ∈ v, isAsciiAlphaB c = true := by
  intro v
  induction v with
  | nil =>
    intro w h _
    match w, h with
    | [], _ => exact ⟨rfl, rfl, by simp⟩
  | cons c cv ih =>
    intro w h hw
    match w, h with
    | d :: dw, h =>
      rw [asciiVariantB, Bool.and_eq_true] at h
      have hd := hw d (List.mem_cons_self d dw)
      obtain ⟨ih1, ih2, ih3⟩ :=
        ih h.2 (fun x hx => hw x (List.mem_cons_of_mem d hx))
      refine ⟨by simp [ih1], ?_, ?_⟩
      · rw [icPref, Bool.and_eq_true]
        exact ⟨upVariantChar_matches h.1, ih2⟩
      · intro x hx
        rcases List.mem_cons.mp hx with rfl | hx
        · exact upVariantChar_alpha hd.1 hd.2 h.1
        · exact ih3 x hx

theorem variant_pref_eq : ∀ {wp v w : List Char}, asciiVariantB v w = true →
    (∀ d ∈ w, 97 ≤ d.toNat ∧ d.toNat ≤ 122) →
    (∀ d ∈ wp, 97 ≤ d.toNat ∧ d.toNat ≤ 122) →
    icPref wp v = true → wp.isPrefixOf w = true := by
  intro wp
  induction wp with
  | nil => intro v w _ _ _ _; cases w <;> rfl
  | cons dp tp ih =>
    intro v w hv hw hwp hp
    match v, hp with
    | c :: cv, hp =>
      match w, hv with
      | d :: dw, hv =>
        rw [asciiVariantB, Bool.and_eq_true] at hv
        rw [icPref, Bool.and_eq_true] at hp
        have hd := hw d (List.mem_cons_self d dw)
        have hdp := hwp dp (List.mem_cons_self dp tp)
        have heq : dp = d := by
          rw [upVariantChar, Bool.or_eq_true] at hv
          rcases hv.1 with h1 | h1
          · have hcd : c = d := by simpa using h1
            subst hcd
            rw [matchesLower, Bool.or_eq_true, Bool.or_eq_true,
              Bool.or_eq_true] at hp
            rcases hp.1 with ((h2 | h2) | h2) | h2
            · exact (by simpa using h2 : c = dp).symm
            · simp only [Bool.and_eq_true, decide_eq_true_eq,
                beq_iff_eq] at h2
              omega
            · simp only [Bool.and_eq_true, beq_iff_eq] at h2
              have := hd.2; rw [h2.2] at this; omega
            · simp only [Bool.and_eq_true, beq_iff_eq] at h2
              have := hd.2; rw [h2.2] at this; omega
          · simp only [Bool.and_eq_true, decide_eq_true_eq, beq_iff_eq] at h1
            rw [matchesLower, Bool.or_eq_true, Bool.or_eq_true,
              Bool.or_eq_true] at hp
            rcases hp.1 with ((h2 | h2) | h2) | h2
            · have hcd : c = dp := by simpa using h2
              subst hcd; omega
            · simp only [Bool.and_eq_true, decide_eq_true_eq,
                beq_iff_eq] at h2
              apply char_toNat_inj; omega
            · simp only [Bool.and_eq_true, beq_iff_eq] at h2
              have := h1.1.2; rw [h2.2] at this; omega
            · simp only [Bool.and_eq_true, beq_iff_eq] at h2
              have := h1.1.2; rw [h2.2] at this; omega
        subst heq
        rw [List.isPrefixOf, Bool.and_eq_true]
        refine ⟨by simp, ?_⟩
        exact ih hv.2 (fun x hx => hw x (List.mem_cons_of_mem dp hx))
          (fun x hx => hwp x (List.mem_cons_of_mem dp hx)) hp.2

theorem key_unique {α β : Type} : ∀ (l : List (α × β)),
    (l.map Prod.fst).Nodup →
    ∀ a b c, (a, b) ∈ l → (a, c) ∈ l → b = c := by
  intro l
  induction l with
  | nil => simp
  | cons x t ih =>
    intro hnd a b c hb hc
    simp only [List.map_cons, List.nodup_cons] at hnd
    rcases List.mem_cons.mp hb with hb1 | hb1
    · rcases List.mem_cons.mp hc with hc1 | hc1
      · have : (a, b) = (a, c) := hb1.trans hc1.symm
        simpa using this
      · exfalso
        apply hnd.1
        have hxa : x.1 = a := by rw [← hb1]
        rw [hxa]
        simpa using List.mem_map_of_mem Prod.fst hc1
    · rcases List.mem_cons.mp hc with hc1 | hc1
      · exfalso
        apply hnd.1
        have hxa : x.1 = a := by rw [← hc1]
        rw [hxa]
        simpa using List.mem_map_of_mem Prod.fst hb1
      · exact ih hnd.2 a b c hb1 hc1

theorem find_unique {p : List Char × Token → Bool} {e : List Char × Token} :
    ∀ l : List (List Char × Token), e ∈ l → p e = true →
    (∀ x ∈ l, p x = true → x = e) → l.find? p = some e := by
  intro l
  induction l with
  | nil => simp
  | cons a t ih =>
    intro hmem hp huniq
    by_cases ha : p a = true
    · have he : a = e := huniq a (List.mem_cons_self a t) ha
      subst he
      simp [List.find?_cons_of_pos, ha]
    · have hne : a ≠ e := fun h => ha (h ▸ hp)
      have hmem2 : e ∈ t := by
        rcases List.mem_cons.mp hmem with h | h
        · exact absurd h.symm hne
        · exact h
      rw [List.find?_cons_of_neg _ (by simpa using ha)]
      exact ih hmem2 hp (fun x hx => huniq x (List.mem_cons_of_mem a hx))

theorem keywordMatch_variant {w : List Char} {t : Token}
    (hmem : (w, t) ∈ reservedWords) {v : List Char}
    (hv : asciiVariantB v w = true) :
    keywordMatch v = some (w.length, t) := by
  obtain ⟨_, hchars⟩ := reserved_word_chars hmem
  obtain ⟨_, hpref, _⟩ := asciiVariantB_spec hv hchars
  have huniq : ∀ x ∈ reservedWords, icPref x.1 v = true → x = (w, t) := by
    intro x hx hpx
    obtain ⟨hxne, hxchars⟩ := reserved_word_chars (w := x.1) (t := x.2) hx
    have hxw : x.1.isPrefixOf w = true :=
      variant_pref_eq hv hchars hxchars hpx
    have hor := List.all_eq_true.mp
      (List.all_eq_true.mp reserved_no_prefix_pairs x hx) (w, t) hmem
    rw [Bool.or_eq_true, Bool.not_eq_true'] at hor
    have hx1 : x.1 = w := by
      rcases hor with h | h
      · simpa using h
      · rw [h] at hxw; exact absurd hxw (by simp)
    have hx2 : x.2 = t := by
      apply key_unique reservedWords reserved_nodup_keys w x.2 t
      · rw [← hx1]; exact hx
      · exact hmem
    rw [Prod.ext_iff]
    exact ⟨hx1, hx2⟩
  have hfind : reservedWords.find? (fun e => icPref e.1 v) = some (w, t) :=
    find_unique reservedWords hmem hpref huniq
  rw [keywordMatch, hfind]
  rfl

theorem identStart_head_facts {c : Char} (h : identStart c = true) :
    c ≠ '"' ∧ isDigitB c = false ∧ isWsChar c = false ∧ c ≠ '\n' ∧ c ≠ '\r'
      ∧ c ≠ '/' ∧ c ∉ punctHeads := by
  have hn : (65 ≤ c.toNat ∧ c.toNat ≤ 90) ∨ (97 ≤ c.toNat ∧ c.toNat ≤ 122)
      ∨ c.toNat = 95 := by
    simp only [identStart, Bool.or_eq_true, Bool.and_eq_true,
      decide_eq_true_eq, beq_iff_eq] at h
    rcases h with (h | h) | h
    · exact Or.inl h
    · exact Or.inr (Or.inl h)
    · subst h; exact Or.inr (Or.inr rfl)
  refine ⟨?_, ?_, ?_, ?_, ?_, ?_, ?_⟩
  · intro h0; subst h0; exact absurd hn (by decide)
  · cases hd : isDigitB c with
    | false => rfl
    | true =>
      exfalso
      simp only [isDigitB, Bool.and_eq_true, decide_eq_true_eq] at hd
      omega
  · cases hw : isWsChar c with
    | false => rfl
    | true =>
      exfalso
      simp only [isWsChar, Bool.or_eq_true, beq_iff_eq] at hw
      rcases hw with (rfl | rfl) | rfl <;> exact absurd hn (by decide)
  · intro h0; subst h0; exact absurd hn (by decide)
  · intro h0; subst h0; exact absurd hn (by decide)
  · intro h0; subst h0; exact absurd hn (by decide)
  · intro hm
    simp only [punctHeads, List.mem_cons, List.not_mem_nil, or_false] at hm
    rcases hm with rfl | rfl | rfl | rfl | rfl | rfl | rfl | rfl | rfl
      | rfl | rfl | rfl <;> exact absurd hn (by decide)

theorem candidates_identShaped {cs : List Char} (h : identShapedB cs = true) :
    candidates cs = (keywordMatch cs).toList
      ++ [(cs.length, .Identifier (String.mk cs))] := by
  match cs, h with
  | c :: rest, h =>
    have hh : identStart c = true := by
      rw [identShapedB, Bool.and_eq_true] at h; exact h.1
    obtain ⟨h1, h2, h3, h4, h5, h6, h7⟩ := identStart_head_facts hh
    rw [candidates, punctCandidates_nil h7, quotedMatch_none h1,
      durationMatch_none h2, floatMatch_none h2, numberMatch_none h2,
      identMatch_full h, wsMatch_none h3, nlMatch_none h4 h5,
      commentMatch_none h6, blockMatch_none h6]
    simp [Option.toList]

theorem alpha_identStart {c : Char} (h : isAsciiAlphaB c = true) :
    identStart c = true := by
  rw [isAsciiAlphaB] at h
  rw [identStart, Bool.or_eq_true]
  exact Or.inl h

theorem identShapedB_of_alpha {v : List Char} (hne : v ≠ [])
    (h : ∀ c ∈ v, isAsciiAlphaB c = true) : identShapedB v = true := by
  match v, hne with
  | c :: rest, _ =>
    rw [identShapedB, Bool.and_eq_true]
    refine ⟨alpha_identStart (h c (List.mem_cons_self c rest)), ?_⟩
    rw [List.all_eq_true]
    intro x hx
    rw [identCont, Bool.or_eq_true]
    exact Or.inl (alpha_identStart (h x (List.mem_cons_of_mem c hx)))

theorem bestMatch_keyword_variant {w : List Char} {t : Token}
    (hmem : (w, t) ∈ reservedWords) {v : List Char}
    (hv : asciiVariantB v w = true) :
    bestMatch v = some (v.length, t) := by
  obtain ⟨hwne, hchars⟩ := reserved_word_chars hmem
  obtain ⟨hlen, _, halpha⟩ := asciiVariantB_spec hv hchars
  have hvne : v ≠ [] := by
    intro h0
    rw [h0] at hlen
    exact hwne (List.length_eq_zero.mp hlen.symm)
  have hshape : identShapedB v = true := identShapedB_of_alpha hvne halpha
  rw [bestMatch, candidates_identShaped hshape, keywordMatch_variant hmem hv]
  simp only [Option.toList, List.cons_append, List.nil_append, List.foldl]
  rw [better, better]
  dsimp only
  rw [if_neg (by rw [hlen]; exact lt_irrefl w.length)]
  rw [hlen]

theorem keywordMatch_some {cs : List Char} {n : Nat} {t : Token}
    (h : keywordMatch cs = some (n, t)) :
    ∃ w, (w, t) ∈ reservedWords ∧ icPref w cs = true ∧ n = w.length := by
  unfold keywordMatch at h
  cases hf : reservedWords.find? (fun e => icPref e.1 cs) with
  | none => rw [hf] at h; exact absurd h (by simp)
  | some e =>
    rw [hf] at h
    have he : e.1.length = n ∧ e.2 = t := by
      have := Option.some_inj.mp h
      exact ⟨congrArg Prod.fst this, congrArg Prod.snd this⟩
    refine ⟨e.1, ?_, ?_, he.1.symm⟩
    · rw [← he.2]; exact List.mem_of_find?_eq_some hf
    · have h3 := List.find?_some hf
      simpa using h3

theorem tokenize_single {cs : List Char} {tok : Token}
    (h : bestMatch cs = some (cs.length, tok)) (hne : cs ≠ []) :
    tokenize (String.mk cs) = .ok [⟨tok, currentSpan 1 1 0 cs⟩] := by
  match cs, hne with
  | c :: rest, _ =>
    show tokenizeFuel (String.mk (c :: rest)) (c :: rest).length 1 1 0
      (c :: rest) = _
    rw [List.length_cons]
    rw [List.length_cons] at h
    simp only [tokenizeFuel, h, ← List.length_cons c rest, List.take_length,
      List.drop_length]

/-- C1: each reserved keyword, respelled in any mixture of upper and
lower case, tokenizes to exactly its canonical payload-free keyword
variant and never to an identifier; a maximal identifier lexeme whose
whole text is not case-insensitively equal to any reserved word
tokenizes to an `Identifier` carrying the source text verbatim, case
preserved — a keyword matching a mere prefix never pre-empts it. -/
theorem c1_keyword_case_insensitivity :
    (∀ (w : List Char) (t : Token) (v : List Char), (w, t) ∈ reservedWords →
      asciiVariantB v w = true →
      ∃ sp, tokenize (String.mk v) = .ok [⟨t, sp⟩]) ∧
    (∀ cs : List Char, identShapedB cs = true →
      (reservedWords.all fun e => !icEqWord e.1 cs) = true →
      ∃ sp, tokenize (String.mk cs) = .ok
        [⟨.Identifier (String.mk cs), sp⟩]) := by
  constructor
  · intro w t v hmem hv
    have hvne : v ≠ [] := by
      obtain ⟨hwne, hchars⟩ := reserved_word_chars hmem
      obtain ⟨hlen, _, _⟩ := asciiVariantB_spec hv hchars
      intro h0
      rw [h0] at hlen
      exact hwne (List.length_eq_zero.mp hlen.symm)
    exact ⟨_, tokenize_single (bestMatch_keyword_variant hmem hv) hvne⟩
  · intro cs hshape hnr
    have hcsne : cs ≠ [] := by
      intro h0; rw [h0] at hshape; exact absurd hshape (by decide)
    have hbm : bestMatch cs = some (cs.length, .Identifier (String.mk cs)) := by
      rw [bestMatch, candidates_identShaped hshape]
      cases hk : keywordMatch cs with
      | none => simp [better]
      | some nt =>
        obtain ⟨n1, t1⟩ := nt
        obtain ⟨w, hwmem, hwpref, hwn⟩ := keywordMatch_some hk
        have hlt : n1 < cs.length := by
          have hle : w.length ≤ cs.length := icPref_length_le hwpref
          rcases Nat.lt_or_ge w.length cs.length with h | h
          · omega
          · exfalso
            have hweq : w.length = cs.length := by omega
            have : icEqWord w cs = true := by
              rw [icEqWord, Bool.and_eq_true]
              exact ⟨hwpref, by simp [hweq]⟩
            have hcontra := List.all_eq_true.mp hnr (w, t1) hwmem
            rw [Bool.not_eq_true'] at hcontra
            rw [hcontra] at this
            exact Bool.false_ne_true this
        simp only [Option.toList, List.cons_append, List.nil_append,
          List.foldl]
        rw [better, better]
        dsimp only
        rw [if_pos hlt]
    exact ⟨_, tokenize_single hbm hcsne⟩

/-- Witness for C1: `VaR` tokenizes to the canonical `Var` keyword, and
`VaRx` tokenizes to an identifier preserving its case. -/
theorem c1_witness :
    (∃ sp, tokenize (String.mk ['V', 'a', 'R']) = .ok [⟨.Var, sp⟩]) ∧
    (∃ sp, tokenize (String.mk ['V', 'a', 'R', 'x']) = .ok
      [⟨.Identifier (String.mk ['V', 'a', 'R', 'x']), sp⟩]) :=
  ⟨c1_keyword_case_insensitivity.1 "var".data .Var ['V', 'a', 'R']
      (List.mem_cons_self _ _) (by decide),
   c1_keyword_case_insensitivity.2 ['V', 'a', 'R', 'x'] (by decide)
      (by decide)⟩

theorem qstrBody_letters : ∀ (cs : List Char),
    (∀ c ∈ cs, isAsciiAlphaB c = true) → ∀ n, qstrBody cs n = none := by
  intro cs
  induction cs with
  | nil => intro _ _; rfl
  | cons c t ih =>
    intro h n
    have hc := h c (List.mem_cons_self c t)
    have h1 : c ≠ '"' := by intro h0; subst h0; exact absurd hc (by decide)
    have h2 : c ≠ '\\' := by intro h0; subst h0; exact absurd hc (by decide)
    rw [qstrBody.eq_def]
    simp [h1, h2, ih (fun x hx => h x (List.mem_cons_of_mem c hx))]

/-- C9: an input consisting of a double quote followed by one or more
ASCII letters and no closing quote matches no classification rule at the
opening quote (the quoted-string rule requires a closing quote), so
`tokenize` returns a `SyntaxError` naming the quote character, carrying
the complete input, over the offending position — there is no
unterminated-string token. -/
theorem c9_unterminated_string (cs : List Char) (h1 : cs ≠ [])
    (h2 : ∀ c ∈ cs, isAsciiAlphaB c = true) :
    tokenize (String.mk ('"' :: cs)) = .error (.SyntaxError
      ("Unexpected character: '" ++ String.mk ['"'] ++ "'")
      (String.mk ('"' :: cs)) ⟨0, 1⟩) := by
  have hbm : bestMatch ('"' :: cs) = none := by
    rw [bestMatch, candidates, keywordMatch_none (by decide) cs,
      punctCandidates_nil (by decide) cs, durationMatch_none (by decide) cs,
      floatMatch_none (by decide) cs, numberMatch_none (by decide) cs,
      identMatch_none (by decide) cs, wsMatch_none (by decide) cs,
      nlMatch_none (by decide) (by decide) cs,
      commentMatch_none (by decide) cs, blockMatch_none (by decide) cs]
    simp [quotedMatch, qstrBody_letters cs h2 1]
  show tokenizeFuel (String.mk ('"' :: cs)) ('"' :: cs).length 1 1 0
    ('"' :: cs) = _
  rw [List.length_cons]
  simp only [tokenizeFuel, hbm]
  rfl

/-- Witness for C9: the unterminated string `"abc` fails with the
quote-character syntax error. -/
theorem c9_witness :
    tokenize (String.mk ['"', 'a', 'b', 'c']) = .error (.SyntaxError
      ("Unexpected character: '" ++ String.mk ['"'] ++ "'")
      (String.mk ['"', 'a', 'b', 'c']) ⟨0, 1⟩) :=
  c9_unterminated_string ['a', 'b', 'c'] (by decide) (by decide)

theorem hasStarSlash_tail {x : Char} {rest : List Char}
    (h : hasStarSlash (x :: rest) = false) : hasStarSlash rest = false := by
  rw [hasStarSlash, Bool.or_eq_false_iff] at h
  exact h.2

theorem blockScan_closes : ∀ (k : Nat) (s : List Char), s.length ≤ k →
    hasStarSlash s = false → endsStar s = false →
    ∀ n, blockScan false (s ++ ['*', '/']) n = some (n + s.length + 2) := by
  intro k
  induction k with
  | zero =>
    intro s hs _ _ n
    have h0 : s = [] := List.length_eq_zero.mp (Nat.le_zero.mp hs)
    subst h0
    simp [blockScan]
  | succ k ih =>
    intro s hs h1 h2 n
    match s with
    | [] => simp [blockScan]
    | c :: s1 =>
      by_cases hc : c = '*'
      · subst hc
        match s1 with
        | [] => exact absurd h2 (by decide)
        | d :: s2 =>
          have hd : d ≠ '/' := by
            intro h0
            subst h0
            rw [hasStarSlash] at h1
            exact absurd h1 (by simp [startsSS])
          have h1a : hasStarSlash s2 = false :=
            hasStarSlash_tail (hasStarSlash_tail h1)
          have h2a : endsStar s2 = false := by
            match s2 with
            | [] => rfl
            | e :: s3 =>
              rw [show endsStar ('*' :: d :: e :: s3)
                  = endsStar (e :: s3) from rfl] at h2
              exact h2
          have hstep := ih s2 (by simp at hs ⊢; omega) h1a h2a (n + 2)
          show blockScan false ('*' :: d :: (s2 ++ ['*', '/'])) n = _
          rw [blockScan, if_pos rfl, blockScan, if_neg hd, hstep]
          simp only [List.length_cons]
          congr 1
          omega
      · have h2a : endsStar s1 = false := by
          match s1 with
          | [] => rfl
          | e :: s3 =>
            rw [show endsStar (c :: e :: s3) = endsStar (e :: s3) from rfl] at h2
            exact h2
        have hstep := ih s1 (by simp at hs ⊢; omega) (hasStarSlash_tail h1)
          h2a (n + 1)
        show blockScan false (c :: (s1 ++ ['*', '/'])) n = _
        rw [blockScan, if_neg hc, hstep]
        simp only [List.length_cons]
        congr 1
        omega

theorem blockMatch_full {s : List Char} (h1 : hasStarSlash s = false)
    (h2 : endsStar s = false) :
    blockMatch ('/' :: '*' :: (s ++ ['*', '/'])) =
      some (s.length + 4, .BlockComment) := by
  rw [blockMatch.eq_def]
  simp only [if_pos rfl]
  rw [blockScan_closes s.length s le_rfl h1 h2 2]
  simp only [Option.map_some']
  have harith : 2 + s.length + 2 = s.length + 4 := by omega
  rw [harith]
  simp

theorem bestMatch_block {s : List Char} (h1 : hasStarSlash s = false)
    (h2 : endsStar s = false) :
    bestMatch ('/' :: '*' :: (s ++ ['*', '/'])) =
      some (('/' :: '*' :: (s ++ ['*', '/'])).length, .BlockComment) := by
  have hlen : ('/' :: '*' :: (s ++ ['*', '/'])).length = s.length + 4 := by
    simp only [List.length_cons, List.length_append, List.length_nil]
  rw [bestMatch, candidates, keywordMatch_none (by decide),
    punctCandidates_nil (by decide), quotedMatch_none (by decide),
    durationMatch_none (by decide), floatMatch_none (by decide),
    numberMatch_none (by decide), identMatch_none (by decide),
    wsMatch_none (by decide), nlMatch_none (by decide) (by decide),
    blockMatch_full h1 h2, hlen]
  have hcm : commentMatch ('/' :: '*' :: (s ++ ['*', '/'])) = none := by
    rw [commentMatch.eq_def]
    simp
  rw [hcm]
  simp [better]

/-- Counterexample to C6 as stated: the content `*` contains no `*/`,
yet `/***/` (that is, `/*` ++ `*` ++ `*/`) fails to tokenize — the
block-comment pattern `/\*([^*]|\*[^/])*\*/` cannot match a comment whose
content ends in `*`, and no other rule matches `/`. -/
theorem c6_counterexample :
    hasStarSlash ['*'] = false ∧
    isOkE (tokenize (String.mk ('/' :: '*' :: (['*'] ++ ['*', '/'])))) =
      false := by
  exact ⟨rfl, rfl⟩

/-- C6 (amended): for every content `s` containing no occurrence of the
two-character sequence `*/` and not ending in `*`, tokenizing
`/*` ++ s ++ `*/` succeeds and yields exactly one block-comment token
covering the whole input (block comments are non-greedy and do not
nest). -/
theorem c6_block_comment (s : List Char) (h1 : hasStarSlash s = false)
    (h2 : endsStar s = false) :
    ∃ sp, tokenize (String.mk ('/' :: '*' :: (s ++ ['*', '/']))) =
        .ok [⟨.BlockComment, sp⟩]
      ∧ sp.start.offset = 0
      ∧ sp.stop.offset = utf8Len ('/' :: '*' :: (s ++ ['*', '/'])) := by
  refine ⟨currentSpan 1 1 0 ('/' :: '*' :: (s ++ ['*', '/'])), ?_, rfl, ?_⟩
  · exact tokenize_single (bestMatch_block h1 h2) (by simp)
  · show 0 + utf8Len ('/' :: '*' :: (s ++ ['*', '/'])) = _
    omega

/-- Witness for C6 (amended): `/*a*/` tokenizes to a single block-comment
token spanning the whole five bytes. -/
theorem c6_witness :
    ∃ sp, tokenize (String.mk ('/' :: '*' :: (['a'] ++ ['*', '/']))) =
        .ok [⟨.BlockComment, sp⟩]
      ∧ sp.start.offset = 0
      ∧ sp.stop.offset = utf8Len ('/' :: '*' :: (['a'] ++ ['*', '/'])) :=
  c6_block_comment ['a'] (by decide) (by decide)

theorem qstrBody_lt : ∀ (j : Nat) (l : List Char), l.length ≤ j →
    ∀ k m, qstrBody l k = some m → k < m := by
  intro j
  induction j with
  | zero =>
    intro l hl k m h
    have h0 : l = [] := List.length_eq_zero.mp (Nat.le_zero.mp hl)
    subst h0
    exact absurd h (by simp [qstrBody])
  | succ j ih =>
    intro l hl k m h
    match l with
    | [] => exact absurd h (by simp [qstrBody])
    | c :: rest =>
      rw [qstrBody.eq_def] at h
      dsimp only at h
      split at h
      · have := Option.some_inj.mp h; omega
      · split at h
        · rcases rest with _ | ⟨e, rest2⟩
          · exact absurd h (by simp)
          · dsimp only at h
            split at h
            · exact absurd h (by simp)
            · have := ih rest2 (by simp at hl ⊢; omega) (k + 2) m h
              omega
        · have := ih rest (by simp at hl ⊢; omega) (k + 1) m h
          omega

theorem blockScan_lt : ∀ (j : Nat) (l : List Char), l.length ≤ j →
    ∀ b k m, blockScan b l k = some m → k < m := by
  intro j
  induction j with
  | zero =>
    intro l hl b k m h
    have h0 : l = [] := List.length_eq_zero.mp (Nat.le_zero.mp hl)
    subst h0
    cases b <;> exact absurd h (by simp [blockScan])
  | succ j ih =>
    intro l hl b k m h
    match l with
    | [] => cases b <;> exact absurd h (by simp [blockScan])
    | c :: rest =>
      cases b with
      | false =>
        rw [blockScan.eq_def] at h
        dsimp only at h
        split at h
        · have := ih rest (by simp at hl ⊢; omega) true (k + 1) m h
          omega
        · have := ih rest (by simp at hl ⊢; omega) false (k + 1) m h
          omega
      | true =>
        rw [blockScan.eq_def] at h
        dsimp only at h
        split at h
        · have := Option.some_inj.mp h; omega
        · have := ih rest (by simp at hl ⊢; omega) false (k + 1) m h
          omega

theorem candidates_pos {cs : List Char} {x : Nat × Token}
    (hx : x ∈ candidates cs) : 0 < x.1 := by
  rw [candidates] at hx
  simp only [List.mem_append, Option.mem_toList, Option.mem_def] at hx
  rcases hx with ((((((((((hk | hp) | hq) | hd) | hf) | hn) | hi) | hw)
    | hnl) | hc) | hb)
  · obtain ⟨x1, x2⟩ := x
    obtain ⟨w, hwmem, _, hwn⟩ := keywordMatch_some hk
    have := (reserved_word_chars hwmem).1
    have : w.length ≠ 0 := fun h0 => this (List.length_eq_zero.mp h0)
    simp only
    omega
  · rw [punctCandidates] at hp
    obtain ⟨e, he, hee⟩ := List.mem_filterMap.mp hp
    split at hee
    · have hh := List.all_eq_true.mp punct_rules_wf e he
      cases h1 : e.1 with
      | nil => rw [h1] at hh; exact absurd hh (by simp)
      | cons h0 tl =>
        have := Option.some_inj.mp hee
        rw [← this, h1]
        simp
    · exact absurd hee (by simp)
  · rw [quotedMatch.eq_def] at hq
    rcases cs with _ | ⟨c, rest⟩
    · exact absurd hq (by simp)
    · dsimp only at hq
      split at hq
      · cases hqb : qstrBody rest 1 with
        | none => rw [hqb] at hq; exact absurd hq (by simp)
        | some m =>
          rw [hqb] at hq
          have hlt := qstrBody_lt rest.length rest le_rfl 1 m hqb
          have := Option.some_inj.mp hq
          rw [← this]
          simp only
          omega
      · exact absurd hq (by simp)
  · rw [durationMatch] at hd
    split at hd
    · exact absurd hd (by simp)
    · split at hd <;>
        try (rw [← Option.some_inj.mp hd]
             simp only
             omega)
      exact absurd hd (by simp)
  · rw [floatMatch] at hf
    split at hf
    · exact absurd hf (by simp)
    · split at hf
      · split at hf
        · exact absurd hf (by simp)
        · have := Option.some_inj.mp hf
          rw [← this]
          simp only
          omega
      · exact absurd hf (by simp)
  · rw [numberMatch] at hn
    split at hn
    · exact absurd hn (by simp)
    · have := Option.some_inj.mp hn
      rw [← this]
      simp only
      omega
  · rw [identMatch.eq_def] at hi
    rcases cs with _ | ⟨c, rest⟩
    · exact absurd hi (by simp)
    · dsimp only at hi
      split at hi
      · have := Option.some_inj.mp hi
        rw [← this]
        simp only
        omega
      · exact absurd hi (by simp)
  · rw [wsMatch] at hw
    split at hw
    · exact absurd hw (by simp)
    · have := Option.some_inj.mp hw
      rw [← this]
      simp only
      omega
  · rw [nlMatch.eq_def] at hnl
    rcases cs with _ | ⟨c, rest⟩
    · exact absurd hnl (by simp)
    · dsimp only at hnl
      split at hnl
      · have := Option.some_inj.mp hnl
        rw [← this]
        simp
      · split at hnl
        · rcases rest with _ | ⟨d, rest2⟩
          · exact absurd hnl (by simp)
          · dsimp only at hnl
            split at hnl
            · have := Option.some_inj.mp hnl
              rw [← this]
              simp
            · exact absurd hnl (by simp)
        · exact absurd hnl (by simp)
  · rw [commentMatch.eq_def] at hc
    rcases cs with _ | ⟨c, rest⟩
    · exact absurd hc (by simp)
    · dsimp only at hc
      split at hc
      · rcases rest with _ | ⟨d, rest2⟩
        · exact absurd hc (by simp)
        · dsimp only at hc
          split at hc
          · have := Option.some_inj.mp hc
            rw [← this]
            simp
          · exact absurd hc (by simp)
      · exact absurd hc (by simp)
  · rw [blockMatch.eq_def] at hb
    rcases cs with _ | ⟨c, rest⟩
    · exact absurd hb (by simp)
    · dsimp only at hb
      split at hb
      · rcases rest with _ | ⟨d, rest2⟩
        · exact absurd hb (by simp)
        · dsimp only at hb
          split at hb
          · cases hbs : blockScan false rest2 2 with
            | none => rw [hbs] at hb; exact absurd hb (by simp)
            | some m =>
              rw [hbs] at hb
              have hlt := blockScan_lt rest2.length rest2 le_rfl false 2 m hbs
              simp only [Option.map_some'] at hb
              have := Option.some_inj.mp hb
              rw [← this]
              simp only
              omega
          · exact absurd hb (by simp)
      · exact absurd hb (by simp)

theorem bestMatch_pos {cs : List Char} {n : Nat} {t : Token}
    (h : bestMatch cs = some (n, t)) : 0 < n := by
  rcases foldl_better_some h with h1 | h1
  · exact absurd h1 (by simp)
  · exact candidates_pos h1

theorem utf8Len_append (a b : List Char) :
    utf8Len (a ++ b) = utf8Len a + utf8Len b := by
  induction a with
  | nil => simp [utf8Len]
  | cons c t ih =>
    simp only [List.cons_append, utf8Len, List.foldr_cons] at ih ⊢
    omega

theorem tokenizeFuel_cons (src : String) (fuel line col offset : Nat)
    (c : Char) (rest : List Char) :
    tokenizeFuel src (fuel + 1) line col offset (c :: rest) =
      match bestMatch (c :: rest) with
      | some (n, tok) =>
        match tokenizeFuel src fuel
            (advancePos line col ((c :: rest).take n)).1
            (advancePos line col ((c :: rest).take n)).2
            (offset + utf8Len ((c :: rest).take n)) ((c :: rest).drop n) with
        | .ok ts =>
          .ok (⟨tok, currentSpan line col offset ((c :: rest).take n)⟩ :: ts)
        | .error e => .error e
      | none =>
        .error (NaviLangError.syntax_error
          ("Unexpected character: '" ++ String.mk [c] ++ "'") src
          (currentSpan line col offset [c])) := rfl

theorem tokenizeFuel_error (src : String) : ∀ (fuel : Nat) (cs : List Char),
    cs.length ≤ fuel → ∀ (line col offset : Nat) (e : NaviLangError),
    tokenizeFuel src fuel line col offset cs = .error e →
    ∃ pre c suf, cs = pre ++ c :: suf ∧ bestMatch (c :: suf) = none ∧
      e = .SyntaxError ("Unexpected character: '" ++ String.mk [c] ++ "'")
        src ⟨offset + utf8Len pre, charBytes c⟩ := by
  intro fuel
  induction fuel with
  | zero =>
    intro cs hl line col offset e h
    have h0 : cs = [] := List.length_eq_zero.mp (Nat.le_zero.mp hl)
    subst h0
    exact absurd h (by simp [tokenizeFuel])
  | succ fuel ih =>
    intro cs hl line col offset e h
    match cs with
    | [] => exact absurd h (by simp [tokenizeFuel])
    | c :: rest =>
      rw [tokenizeFuel_cons] at h
      cases hbm : bestMatch (c :: rest) with
      | none =>
        rw [hbm] at h
        refine ⟨[], c, rest, rfl, hbm, ?_⟩
        have he : NaviLangError.syntax_error
            ("Unexpected character: '" ++ String.mk [c] ++ "'") src
            (currentSpan line col offset [c]) = e := by
          simpa using h
        rw [← he]
        simp [NaviLangError.syntax_error, Span.to_miette_span, currentSpan,
          utf8Len]
      | some nt =>
        obtain ⟨n, tok⟩ := nt
        rw [hbm] at h
        dsimp only at h
        cases hrec : tokenizeFuel src fuel
            (advancePos line col ((c :: rest).take n)).1
            (advancePos line col ((c :: rest).take n)).2
            (offset + utf8Len ((c :: rest).take n)) ((c :: rest).drop n) with
        | ok ts => rw [hrec] at h; exact absurd h (by simp)
        | error e2 =>
          rw [hrec] at h
          have he : e2 = e := by simpa using h
          subst he
          have hpos := bestMatch_pos hbm
          have hdl : ((c :: rest).drop n).length ≤ fuel := by
            rw [List.length_drop]
            simp only [List.length_cons] at hl ⊢
            omega
          obtain ⟨pre2, c2, suf2, hsplit, hbm2, he2⟩ :=
            ih _ hdl _ _ _ _ hrec
          refine ⟨(c :: rest).take n ++ pre2, c2, suf2, ?_, hbm2, ?_⟩
          · rw [List.append_assoc, ← hsplit, List.take_append_drop]
          · rw [he2]
            congr 2
            rw [utf8Len_append]
            omega

theorem tokenizeFuel_ok (src : String) : ∀ (fuel : Nat) (cs : List Char),
    cs.length ≤ fuel → ∀ (line col offset : Nat) (ts : List TokenWithSpan),
    tokenizeFuel src fuel line col offset cs = .ok ts →
    ∃ ls : List (List Char), ls.flatten = cs ∧ (∀ l ∈ ls, l ≠ [])
      ∧ TilesFrom offset ls ts := by
  intro fuel
  induction fuel with
  | zero =>
    intro cs hl line col offset ts h
    have h0 : cs = [] := List.length_eq_zero.mp (Nat.le_zero.mp hl)
    subst h0
    have hts : ts = [] := by simpa [tokenizeFuel] using h.symm
    subst hts
    exact ⟨[], rfl, by simp, trivial⟩
  | succ fuel ih =>
    intro cs hl line col offset ts h
    match cs with
    | [] =>
      have hts : ts = [] := by simpa [tokenizeFuel] using h.symm
      subst hts
      exact ⟨[], rfl, by simp, trivial⟩
    | c :: rest =>
      rw [tokenizeFuel_cons] at h
      cases hbm : bestMatch (c :: rest) with
      | none => rw [hbm] at h; exact absurd h (by simp)
      | some nt =>
        obtain ⟨n, tok⟩ := nt
        rw [hbm] at h
        dsimp only at h
        cases hrec : tokenizeFuel src fuel
            (advancePos line col ((c :: rest).take n)).1
            (advancePos line col ((c :: rest).take n)).2
            (offset + utf8Len ((c :: rest).take n)) ((c :: rest).drop n) with
        | error e2 => rw [hrec] at h; exact absurd h (by simp)
        | ok ts2 =>
          rw [hrec] at h
          have hts : ⟨tok, currentSpan line col offset ((c :: rest).take n)⟩
              :: ts2 = ts := by simpa using h
          subst hts
          have hpos := bestMatch_pos hbm
          have hdl : ((c :: rest).drop n).length ≤ fuel := by
            rw [List.length_drop]
            simp only [List.length_cons] at hl ⊢
            omega
          obtain ⟨ls2, hjoin, hne2, htiles⟩ := ih _ hdl _ _ _ _ hrec
          refine ⟨(c :: rest).take n :: ls2, ?_, ?_, ?_⟩
          · rw [List.flatten_cons]
            rw [hjoin, List.take_append_drop]
          · intro l hlmem
            rcases List.mem_cons.mp hlmem with rfl | hlmem
            · match n, hpos with
              | m + 1, _ => simp [List.take_cons]
            · exact hne2 l hlmem
          · exact ⟨rfl, rfl, htiles⟩

theorem tilesFrom_chain : ∀ (ls : List (List Char)) (o : Nat)
    (ts : List TokenWithSpan), TilesFrom o ls ts →
    List.Chain' (fun a b => a.span.stop.offset = b.span.start.offset) ts := by
  intro ls
  induction ls with
  | nil =>
    intro o ts h
    match ts, h with
    | [], _ => simp
  | cons l ls2 ih =>
    intro o ts h
    match ts, h with
    | t :: ts2, h =>
      obtain ⟨h1, h2, h3⟩ := h
      have hc2 := ih _ _ h3
      cases ts2 with
      | nil => simp
      | cons t2 ts3 =>
        rw [List.chain'_cons]
        refine ⟨?_, hc2⟩
        match ls2, h3 with
        | l2 :: ls3, h3 => rw [h2, h3.1]

theorem tilesFrom_head : ∀ (ls : List (List Char)) (o : Nat)
    (ts : List TokenWithSpan), TilesFrom o ls ts →
    ∀ t, ts.head? = some t → t.span.start.offset = o := by
  intro ls o ts h t ht
  match ts, ht with
  | t0 :: ts2, ht =>
    match ls, h with
    | l :: ls2, h =>
      have : t0 = t := by simpa using ht
      subst this
      exact h.1

theorem tilesFrom_last : ∀ (ls : List (List Char)) (o : Nat)
    (ts : List TokenWithSpan), TilesFrom o ls ts →
    ∀ t, ts.getLast? = some t →
    t.span.stop.offset = o + utf8Len ls.flatten := by
  intro ls
  induction ls with
  | nil =>
    intro o ts h t ht
    match ts, h with
    | [], _ => simp at ht
  | cons l ls2 ih =>
    intro o ts h t ht
    match ts, h with
    | t0 :: ts2, h =>
      obtain ⟨h1, h2, h3⟩ := h
      cases ts2 with
      | nil =>
        match ls2, h3 with
        | [], _ =>
          have : t0 = t := by simpa using ht
          subst this
          rw [h2]
          simp [utf8Len_append, utf8Len]
      | cons t2 ts3 =>
        rw [List.getLast?_cons_cons] at ht
        have := ih _ _ h3 t ht
        rw [this]
        simp only [List.flatten_cons]
        rw [utf8Len_append]
        omega

theorem tilesFrom_le : ∀ (ls : List (List Char)) (o : Nat)
    (ts : List TokenWithSpan), TilesFrom o ls ts →
    ∀ t ∈ ts, t.span.start.offset ≤ t.span.stop.offset := by
  intro ls
  induction ls with
  | nil =>
    intro o ts h t ht
    match ts, h with
    | [], _ => simp at ht
  | cons l ls2 ih =>
    intro o ts h t ht
    match ts, h with
    | t0 :: ts2, h =>
      obtain ⟨h1, h2, h3⟩ := h
      rcases List.mem_cons.mp ht with rfl | ht
      · rw [h1, h2]; omega
      · exact ih _ _ h3 t ht

/-- C3: on every successful scan the token spans tile the input in byte
terms: there is a decomposition of the input into the (non-empty)
lexemes, the first token starts at byte offset 0, each token's span is
exactly as long as its lexeme in bytes and starts where the previous span
stopped, the last token stops at the input's byte length, and offsets are
non-decreasing across each span. -/
theorem c3_span_tiling (input : String) (ts : List TokenWithSpan)
    (h : tokenize input = .ok ts) :
    (∃ ls : List (List Char), ls.flatten = input.data ∧ (∀ l ∈ ls, l ≠ [])
      ∧ TilesFrom 0 ls ts) ∧
    List.Chain' (fun a b => a.span.stop.offset = b.span.start.offset) ts ∧
    (∀ t, ts.head? = some t → t.span.start.offset = 0) ∧
    (∀ t, ts.getLast? = some t → t.span.stop.offset = utf8Len input.data) ∧
    (∀ t ∈ ts, t.span.start.offset ≤ t.span.stop.offset) := by
  obtain ⟨ls, hjoin, hne, htiles⟩ :=
    tokenizeFuel_ok input input.data.length input.data le_rfl 1 1 0 ts h
  refine ⟨⟨ls, hjoin, hne, htiles⟩, tilesFrom_chain ls 0 ts htiles,
    tilesFrom_head ls 0 ts htiles, ?_, tilesFrom_le ls 0 ts htiles⟩
  intro t ht
  have := tilesFrom_last ls 0 ts htiles t ht
  rw [this, hjoin]
  omega

/-- Witness for C3: the tiling facts at the concrete input `VAR x`. -/
theorem c3_witness :
    (∃ ls : List (List Char), ls.flatten = "VAR x".data ∧ (∀ l ∈ ls, l ≠ [])
      ∧ TilesFrom 0 ls varXTokens) ∧
    List.Chain' (fun a b => a.span.stop.offset = b.span.start.offset)
      varXTokens ∧
    (∀ t, varXTokens.head? = some t → t.span.start.offset = 0) ∧
    (∀ t, varXTokens.getLast? = some t →
      t.span.stop.offset = utf8Len "VAR x".data) ∧
    (∀ t ∈ varXTokens, t.span.start.offset ≤ t.span.stop.offset) :=
  c3_span_tiling "VAR x" varXTokens (by rfl)

/-- C2: whenever the scan fails, the failure is a `SyntaxError` (never a
partial token list, and `tokenize_filtered` fails identically) whose
message names the offending character, whose source field is the complete
input text, and whose span is the byte offset of the position matched by
no classification rule and the byte length of the offending character. -/
theorem c2_fail_fast (input : String) (e : NaviLangError)
    (h : tokenize input = .error e) :
    tokenize_filtered input = .error e ∧
    ∃ pre c suf, input.data = pre ++ c :: suf ∧ bestMatch (c :: suf) = none ∧
      e = .SyntaxError ("Unexpected character: '" ++ String.mk [c] ++ "'")
        input ⟨utf8Len pre, charBytes c⟩ := by
  constructor
  · rw [tokenize_filtered, h]; rfl
  · have hmain := tokenizeFuel_error input input.data.length input.data
      le_rfl 1 1 0 e h
    simpa using hmain

/-- Witness for C2: the input `@` fails with the quote-exact syntax
error over byte offset 0. -/
theorem c2_witness :
    tokenize_filtered "@" = .error (.SyntaxError
      ("Unexpected character: '" ++ String.mk ['@'] ++ "'") "@" ⟨0, 1⟩) ∧
    ∃ pre c suf, "@".data = pre ++ c :: suf ∧ bestMatch (c :: suf) = none ∧
      (NaviLangError.SyntaxError
        ("Unexpected character: '" ++ String.mk ['@'] ++ "'") "@" ⟨0, 1⟩) =
      .SyntaxError ("Unexpected character: '" ++ String.mk [c] ++ "'")
        "@" ⟨utf8Len pre, charBytes c⟩ :=
  c2_fail_fast "@" _ (by rfl)

end NaviLang
